import Mathlib

/-!
Shallow embedding of `src/picker.js`, a serverless prize-picker handler.

The handler reads the request URL, strips the query string, splits the path
into segments, filters out empty segments and the routing tokens, parses each
remaining segment as a `label_weight` pair, validates weights, and performs
weighted random selection over the parsed entries.

JavaScript particulars modelled exactly:
  - `String.prototype.split` with a non-empty string separator splits at every
    occurrence of the separator (so a segment with two underscores yields three
    parts); Lean's `String.splitOn` has the same semantics for these inputs.
  - `parseInt(s, 10)` skips leading whitespace, accepts an optional sign, then
    takes the longest prefix of base-10 digits; it is NaN exactly when that
    prefix is empty.  We model the result as `Option Int` (`none` for NaN).
  - `Math.random()` is modelled by an injected rational `r` with `0 ≤ r < 1`;
    the JS number arithmetic on the (integer) weights is modelled exactly
    over `ℚ`.
-/

/-- One parsed prize: the `{ name, weight }` objects pushed onto `prizes`. -/
structure Entry where
  name : String
  weight : Int
deriving DecidableEq

/-- JSON bodies the handler can produce. -/
inductive Body where
  | errUsage (error usage : String)
  | errDetails (error details : String)
  | winner (value : Option String)
deriving DecidableEq

/-- An HTTP response: status code plus JSON body. -/
structure Response where
  status : Nat
  body : Body
deriving DecidableEq

def emptyStr : String := ""

def usep : Char := '_'

def slashSep : Char := '/'

def qmarkSep : Char := '?'

def apiTok : String := "api"

def pickerTok : String := "picker"

def errNoPrizes : String := "No prizes provided."

def usageHint : String := "Append prizes and their percentages to the URL path, e.g., /prizeA_50/prizeB_30/prizeC_20"

def errInvalid : String := "Invalid format detected."

def detailsHint : String := "Segments must follow the format: item_percentage (e.g., /apple_40/banana_60). Percentages must be positive numbers."

/-- Split a character list at every occurrence of `sep`.  This is JavaScript
`String.prototype.split` for a separator that is a single character, which is
the only way `split` is used in picker.js (separators `?`, `/`, `_`): the JS
`split` cuts at every occurrence and keeps empty pieces, so for example
`"a_50_x".split('_')` has three parts and `"_".split('_')` is `["", ""]`. -/
def splitChar (sep : Char) : List Char → List (List Char)
  | [] => [[]]
  | c :: rest =>
    match splitChar sep rest with
    | [] => [[]]
    | h :: t => if c = sep then [] :: h :: t else (c :: h) :: t

/-- JavaScript `s.split(sep)` for a one-character separator, on `String`. -/
def jsSplit (sep : Char) (s : String) : List String :=
  (splitChar sep s.data).map String.mk

/-- The whitespace characters skipped by JavaScript `parseInt` (ASCII part of
StrWhiteSpace: tab, LF, VT, FF, CR, space). -/
def jsWhitespace (c : Char) : Bool :=
  c == ' ' || c == '\t' || c == '\n' || c == '\x0b' || c == '\x0c' || c == '\r'

/-- Numeric value of a list of decimal digit characters. -/
def digitsValue (cs : List Char) : Nat :=
  cs.foldl (fun a c => a * 10 + (c.toNat - 48)) 0

/-- Longest prefix of decimal digits, as used by `parseInt`. -/
def leadingDigits (cs : List Char) : List Char :=
  cs.takeWhile (fun c => c.isDigit)

/-- Value of the longest digit prefix; `none` when the prefix is empty. -/
def parseDigits (cs : List Char) : Option Nat :=
  let ds := leadingDigits cs
  if ds.isEmpty then none else some (digitsValue ds)

/-- JavaScript `parseInt(s, 10)`; `none` models NaN. -/
def parseIntJS (s : String) : Option Int :=
  let cs := s.data.dropWhile jsWhitespace
  match cs with
  | [] => none
  | c :: rest =>
    if c = '-' then (parseDigits rest).map (fun n => -(n : Int))
    else if c = '+' then (parseDigits rest).map (fun n => (n : Int))
    else (parseDigits (c :: rest)).map (fun n => (n : Int))

/-- One iteration of the parse loop (picker.js lines 35-53): split the segment
on every underscore, demand exactly two parts, take the name, `parseInt` the
weight, and reject NaN or non-positive weights.  `none` models `isValid = false`. -/
def parseSegment (s : String) : Option Entry :=
  let parts := jsSplit usep s
  if parts.length ≠ 2 then none
  else
    let name := parts.headD emptyStr
    match parseIntJS (parts.getD 1 emptyStr) with
    | none => none
    | some w => if w ≤ 0 then none else some (Entry.mk name w)

/-- The whole parse loop: first invalid segment aborts (the `break`); on
success returns the prizes in encounter order with the accumulated total. -/
def parseEntries : List String → Option (List Entry × Int)
  | [] => some ([], 0)
  | s :: rest =>
    match parseSegment s with
    | none => none
    | some e =>
      match parseEntries rest with
      | none => none
      | some (es, w) => some (e :: es, e.weight + w)

/-- Path preprocessing (picker.js lines 17-20): strip the query string, split
on slashes, keep non-empty segments that are not routing tokens. -/
def pathSegments (url : String) : List String :=
  let path := (jsSplit qmarkSep url).headD emptyStr
  (jsSplit slashSep path).filter
    (fun s => s.length != 0 && s != apiTok && s != pickerTok)

/-- The selection loop (picker.js lines 68-79): add each weight to the
cumulative sum and return the first name whose cumulative sum exceeds the
winning number; `none` models `winner` staying `null`. -/
def selectLoop (w : ℚ) : List Entry → ℚ → Option String
  | [], _ => none
  | e :: rest, cum =>
    if w < cum + (e.weight : ℚ) then some e.name
    else selectLoop w rest (cum + (e.weight : ℚ))

/-- Weighted selection with the random draw `r` injected for `Math.random()`:
`winningNumber = r * totalWeight`, then the cumulative walk from 0. -/
def selectWinner (es : List Entry) (totalWeight : Int) (r : ℚ) : Option String :=
  selectLoop (r * (totalWeight : ℚ)) es 0

/-- The whole handler: `module.exports = (req, res) => ...` with the URL and
the random draw as inputs and the response as output. -/
def handle (url : String) (r : ℚ) : Response :=
  let segments := pathSegments url
  if segments.length = 0 then
    Response.mk 400 (Body.errUsage errNoPrizes usageHint)
  else
    match parseEntries segments with
    | none => Response.mk 400 (Body.errDetails errInvalid detailsHint)
    | some (prizes, totalWeight) =>
      Response.mk 200 (Body.winner (selectWinner prizes totalWeight r))

/-- The weights of an entry list, in order. -/
def weights (es : List Entry) : List Int :=
  es.map (fun e => e.weight)

/-- Total weight of an entry list. -/
def weightSum (es : List Entry) : Int :=
  (weights es).sum

/-- Cumulative weight of the first `i` entries (the value of
`cumulativeWeight` after `i` loop iterations). -/
def cumBefore (es : List Entry) (i : Nat) : Int :=
  ((weights es).take i).sum

def slashStr : String := "/"

def aStr : String := "a"

def bStr : String := "b"

def cStr : String := "c"

def xStr : String := "x"

def segA : String := "a_50"

def segB : String := "b_30"

def segC : String := "c_20"

def segA0 : String := "a_0"

def segA50x : String := "a_50_x"

def segA50abc : String := "a_50abc"

def pathABC : String := "/a_50/b_30/c_20"

def pathA50X : String := "/a_50_x"

def pathA50B : String := "/a_50/b"

def pathA0B10 : String := "/a_0/b_10"

def underFifty : String := "_50"

def pathUnderFifty : String := "/_50"

def wsFifty : String := " 50"

def plusFive : String := "+5"

def fiveDotNine : String := "5.9"

def xwsSeg : String := "x_ 50"

def xplusSeg : String := "x_+5"

def xdotSeg : String := "x_5.9"

/-- The three-entry list of the spec's running example `/a_50/b_30/c_20`. -/
def esABC : List Entry :=
  [Entry.mk aStr 50, Entry.mk bStr 30, Entry.mk cStr 20]

theorem weights_cons (e : Entry) (es : List Entry) :
    weights (e :: es) = e.weight :: weights es := rfl

theorem weightSum_cons (e : Entry) (es : List Entry) :
    weightSum (e :: es) = e.weight + weightSum es := by
  simp [weightSum, weights_cons]

theorem weightSum_nonneg (es : List Entry) (hw : ∀ e ∈ es, 0 ≤ e.weight) :
    0 ≤ weightSum es := by
  induction es with
  | nil => simp [weightSum, weights]
  | cons e rest ih =>
    rw [weightSum_cons]
    have h1 := hw e (by simp)
    have h2 := ih (fun x hx => hw x (by simp [hx]))
    omega

theorem weightSum_pos (es : List Entry) (hne : es ≠ [])
    (hw : ∀ e ∈ es, 0 < e.weight) : 0 < weightSum es := by
  cases es with
  | nil => exact absurd rfl hne
  | cons e rest =>
    rw [weightSum_cons]
    have h1 := hw e (by simp)
    have h2 := weightSum_nonneg rest (fun x hx => le_of_lt (hw x (by simp [hx])))
    omega

theorem cumBefore_zero (es : List Entry) : cumBefore es 0 = 0 := rfl

theorem cumBefore_cons_succ (e : Entry) (es : List Entry) (i : Nat) :
    cumBefore (e :: es) (i + 1) = e.weight + cumBefore es i := by
  simp [cumBefore, weights_cons]

theorem cumBefore_succ (es : List Entry) (i : Nat) (h : i < es.length) :
    cumBefore es (i + 1) = cumBefore es i + (es.get ⟨i, h⟩).weight := by
  induction es generalizing i with
  | nil => simp at h
  | cons e rest ih =>
    cases i with
    | zero => simp [cumBefore_cons_succ, cumBefore_zero]
    | succ j =>
      rw [cumBefore_cons_succ, cumBefore_cons_succ,
        ih j (by simpa using h)]
      simp [add_assoc]

theorem cumBefore_stop (es : List Entry) (i : Nat) (h : es.length ≤ i) :
    cumBefore es i = weightSum es := by
  have hlen : (weights es).length ≤ i := by simpa [weights] using h
  simp [cumBefore, weightSum, List.take_of_length_le hlen]

theorem cumBefore_le_succ (es : List Entry) (hw : ∀ e ∈ es, 0 ≤ e.weight)
    (i : Nat) : cumBefore es i ≤ cumBefore es (i + 1) := by
  by_cases h : i < es.length
  · rw [cumBefore_succ es i h]
    have := hw (es.get ⟨i, h⟩) (es.get_mem _ _)
    omega
  · rw [cumBefore_stop es i (by omega), cumBefore_stop es (i + 1) (by omega)]

theorem cumBefore_mono (es : List Entry) (hw : ∀ e ∈ es, 0 ≤ e.weight)
    {i j : Nat} (hij : i ≤ j) : cumBefore es i ≤ cumBefore es j := by
  induction j with
  | zero =>
    have : i = 0 := by omega
    simp [this]
  | succ k ih =>
    by_cases h : i ≤ k
    · exact le_trans (ih h) (cumBefore_le_succ es hw k)
    · have : i = k + 1 := by omega
      simp [this]

theorem cumBefore_length (es : List Entry) :
    cumBefore es es.length = weightSum es :=
  cumBefore_stop es es.length le_rfl

theorem selectLoop_stops (w : ℚ) (es : List Entry) (c : ℚ) (i : Nat)
    (hi : i < es.length)
    (hfirst : ∀ j, j < i → ¬ w < c + (cumBefore es (j + 1) : ℚ))
    (hhit : w < c + (cumBefore es (i + 1) : ℚ)) :
    selectLoop w es c = some ((es.get ⟨i, hi⟩).name) := by
  induction es generalizing c i with
  | nil => simp at hi
  | cons e rest ih =>
    cases i with
    | zero =>
      have h0 : w < c + (e.weight : ℚ) := by
        rw [cumBefore_cons_succ, cumBefore_zero] at hhit
        push_cast at hhit
        linarith
      simp [selectLoop, h0]
    | succ j =>
      have hnot : ¬ w < c + (e.weight : ℚ) := by
        have h := hfirst 0 (Nat.succ_pos j)
        rw [cumBefore_cons_succ, cumBefore_zero] at h
        push_cast at h
        intro hcon
        exact h (by linarith)
      have hstep : selectLoop w (e :: rest) c
          = selectLoop w rest (c + (e.weight : ℚ)) := by
        simp [selectLoop, hnot]
      rw [hstep]
      have hgoal : selectLoop w rest (c + (e.weight : ℚ))
          = some ((rest.get ⟨j, by simpa using hi⟩).name) := by
        apply ih
        · intro k hk
          have h := hfirst (k + 1) (by omega)
          rw [cumBefore_cons_succ] at h
          push_cast at h
          intro hcon
          exact h (by linarith)
        · rw [cumBefore_cons_succ] at hhit
          push_cast at hhit
          linarith
      rw [hgoal]
      simp

theorem selectLoop_total (w : ℚ) (es : List Entry) (c : ℚ) (hne : es ≠ [])
    (hlt : w < c + (weightSum es : ℚ)) :
    ∃ l, selectLoop w es c = some l ∧ l ∈ es.map (fun e => e.name) := by
  induction es generalizing c with
  | nil => exact absurd rfl hne
  | cons e rest ih =>
    by_cases hw : w < c + (e.weight : ℚ)
    · exact ⟨e.name, by simp [selectLoop, hw]⟩
    · cases rest with
      | nil =>
        exfalso
        rw [weightSum_cons] at hlt
        push_cast at hlt
        have : weightSum [] = 0 := rfl
        rw [this] at hlt
        push_cast at hlt
        exact hw (by linarith)
      | cons f rest2 =>
        have hlt2 : w < (c + (e.weight : ℚ)) + (weightSum (f :: rest2) : ℚ) := by
          rw [weightSum_cons] at hlt
          push_cast at hlt
          linarith
        obtain ⟨l, hsel, hmem⟩ := ih (c + (e.weight : ℚ)) (by simp) hlt2
        have hstep : selectLoop w (e :: (f :: rest2)) c
            = if w < c + (e.weight : ℚ) then some e.name
              else selectLoop w (f :: rest2) (c + (e.weight : ℚ)) := rfl
        refine ⟨l, ?_, by simp only [List.map_cons, List.mem_cons]; right; simpa using hmem⟩
        rw [hstep, if_neg hw]
        exact hsel

theorem parseSegment_some {s : String} {e : Entry}
    (h : parseSegment s = some e) :
    (jsSplit usep s).length = 2
    ∧ e.name = (jsSplit usep s).headD emptyStr
    ∧ parseIntJS ((jsSplit usep s).getD 1 emptyStr) = some e.weight
    ∧ 0 < e.weight := by
  unfold parseSegment at h
  by_cases hlen : (jsSplit usep s).length = 2
  · rw [if_neg (by simpa using hlen)] at h
    cases hint : parseIntJS ((jsSplit usep s).getD 1 emptyStr) with
    | none => rw [hint] at h; dsimp only at h; cases h
    | some w =>
      rw [hint] at h
      dsimp only at h
      by_cases hpos : w ≤ 0
      · rw [if_pos hpos] at h; cases h
      · rw [if_neg hpos] at h
        have he : Entry.mk ((jsSplit usep s).headD emptyStr) w = e :=
          Option.some.inj h
        subst he
        exact ⟨hlen, rfl, rfl, by show (0 : Int) < w; omega⟩
  · rw [if_pos (by simpa using hlen)] at h
    cases h

theorem parseSegment_split_ne {s : String}
    (h : (jsSplit usep s).length ≠ 2) : parseSegment s = none := by
  unfold parseSegment
  rw [if_pos (by simpa using h)]

theorem parseSegment_weight_bad {s : String}
    (hlen : (jsSplit usep s).length = 2)
    (hbad : parseIntJS ((jsSplit usep s).getD 1 emptyStr) = none
      ∨ ∃ v, parseIntJS ((jsSplit usep s).getD 1 emptyStr) = some v ∧ v ≤ 0) :
    parseSegment s = none := by
  unfold parseSegment
  rw [if_neg (by simpa using hlen)]
  rcases hbad with hnan | ⟨v, hv, hvle⟩
  · rw [hnan]
  · rw [hv]
    dsimp only
    rw [if_pos hvle]

theorem parseEntries_sound (segs : List String) (es : List Entry) (W : Int)
    (h : parseEntries segs = some (es, W)) :
    es.length = segs.length
    ∧ W = weightSum es
    ∧ (∀ e ∈ es, 0 < e.weight)
    ∧ (∀ i : Nat, es[i]? = (segs[i]?).bind parseSegment) := by
  induction segs generalizing es W with
  | nil =>
    have hes : es = [] ∧ W = 0 := by
      unfold parseEntries at h
      have := Option.some.inj h
      exact ⟨congrArg Prod.fst this |>.symm, congrArg Prod.snd this |>.symm⟩
    obtain ⟨h1, h2⟩ := hes
    subst h1; subst h2
    refine ⟨rfl, rfl, by simp, ?_⟩
    intro i
    simp
  | cons s rest ih =>
    unfold parseEntries at h
    cases hps : parseSegment s with
    | none => rw [hps] at h; cases h
    | some e =>
      rw [hps] at h
      cases hpr : parseEntries rest with
      | none => rw [hpr] at h; cases h
      | some p =>
        rw [hpr] at h
        obtain ⟨es2, W2⟩ := p
        have hpair := Option.some.inj h
        have hes : e :: es2 = es := congrArg Prod.fst hpair
        have hW : e.weight + W2 = W := congrArg Prod.snd hpair
        subst hes; subst hW
        obtain ⟨ihl, ihW, ihpos, ihidx⟩ := ih es2 W2 hpr
        refine ⟨by simp [ihl], by rw [weightSum_cons, ihW], ?_, ?_⟩
        · intro x hx
          rcases List.mem_cons.mp hx with hx | hx
          · subst hx; exact (parseSegment_some hps).2.2.2
          · exact ihpos x hx
        · intro i
          cases i with
          | zero => simpa using hps.symm
          | succ j => simpa using ihidx j

theorem parseEntries_none {segs : List String} {s : String}
    (hs : s ∈ segs) (hbad : parseSegment s = none) :
    parseEntries segs = none := by
  induction segs with
  | nil => cases hs
  | cons a rest ih =>
    unfold parseEntries
    rcases List.mem_cons.mp hs with h | h
    · subst h
      rw [hbad]
    · cases hps : parseSegment a with
      | none => rfl
      | some e => rw [ih h]

theorem handle_empty {url : String} (r : ℚ) (h : pathSegments url = []) :
    handle url r = Response.mk 400 (Body.errUsage errNoPrizes usageHint) := by
  unfold handle
  rw [if_pos (by simp [h])]

theorem handle_invalid {url : String} (r : ℚ) (hne : pathSegments url ≠ [])
    (hp : parseEntries (pathSegments url) = none) :
    handle url r = Response.mk 400 (Body.errDetails errInvalid detailsHint) := by
  unfold handle
  rw [if_neg (by simpa [List.length_eq_zero] using hne), hp]

theorem handle_success {url : String} (r : ℚ) {es : List Entry} {W : Int}
    (hne : pathSegments url ≠ [])
    (hp : parseEntries (pathSegments url) = some (es, W)) :
    handle url r = Response.mk 200 (Body.winner (selectWinner es W r)) := by
  unfold handle
  rw [if_neg (by simpa [List.length_eq_zero] using hne), hp]

theorem isDigit_ne (c d : Char) (h : c.isDigit = true)
    (hd : d.isDigit = false) : c ≠ d := by
  intro he
  rw [he] at h
  rw [h] at hd
  cases hd

theorem digit_not_ws (c : Char) (h : c.isDigit = true) :
    jsWhitespace c = false := by
  have hne : ∀ d : Char, d.isDigit = false → (c == d) = false := by
    intro d hd
    exact beq_eq_false_iff_ne.mpr (isDigit_ne c d h hd)
  simp only [jsWhitespace, Bool.or_eq_false_iff]
  exact ⟨⟨⟨⟨⟨hne ' ' (by decide), hne '\t' (by decide)⟩, hne '\n' (by decide)⟩,
    hne '\x0b' (by decide)⟩, hne '\x0c' (by decide)⟩, hne '\r' (by decide)⟩

theorem takeWhile_append_of (p : Char → Bool) (l1 l2 : List Char)
    (h1 : ∀ c ∈ l1, p c = true) (h2 : ∀ c ∈ l2.take 1, p c = false) :
    (l1 ++ l2).takeWhile p = l1 := by
  induction l1 with
  | nil =>
    cases l2 with
    | nil => rfl
    | cons b t =>
      simp [List.takeWhile_cons, h2 b (by simp)]
  | cons a t ih =>
    simp only [List.cons_append, List.takeWhile_cons, h1 a (by simp), if_pos]
    rw [ih (fun c hc => h1 c (by simp [hc])) ]

theorem parseIntJS_digits (ds rest : List Char) (hne : ds ≠ [])
    (hdig : ∀ c ∈ ds, c.isDigit = true)
    (hrest : ∀ c ∈ rest.take 1, c.isDigit = false) :
    parseIntJS (String.mk (ds ++ rest)) = some ((digitsValue ds : Nat) : Int) := by
  cases ds with
  | nil => exact absurd rfl hne
  | cons d dt =>
    have hd := hdig d (by simp)
    unfold parseIntJS
    have hdata : (String.mk ((d :: dt) ++ rest)).data = d :: (dt ++ rest) := rfl
    rw [hdata]
    have hdrop : (d :: (dt ++ rest)).dropWhile jsWhitespace = d :: (dt ++ rest) := by
      simp [List.dropWhile_cons, digit_not_ws d hd]
    rw [hdrop]
    dsimp only
    rw [if_neg (isDigit_ne d '-' hd (by decide)),
      if_neg (isDigit_ne d '+' hd (by decide))]
    have htake : leadingDigits (d :: (dt ++ rest)) = d :: dt := by
      unfold leadingDigits
      have := takeWhile_append_of (fun c => c.isDigit) (d :: dt) rest hdig hrest
      simpa using this
    unfold parseDigits
    rw [htake]
    rfl

/-- Claim C1: for a validated non-empty entry list and a draw `r` in `[0,1)`,
the selection returns the label of the first entry whose cumulative weight
exceeds `r * totalWeight`; entry `i` is selected exactly when
`r * totalWeight` lies in the half-open interval
`[cumBefore i, cumBefore (i+1))`, whose width is `weight i`, so the selection
probability of entry `i` is `weight i / totalWeight`. -/
theorem selectWinner_first_interval (es : List Entry) (r : ℚ) (i : Nat)
    (hi : i < es.length) (hpos : ∀ e ∈ es, 0 < e.weight)
    (h0 : 0 ≤ r) (h1 : r < 1)
    (hlo : (cumBefore es i : ℚ) ≤ r * (weightSum es : ℚ))
    (hhi : r * (weightSum es : ℚ) < (cumBefore es (i + 1) : ℚ)) :
    selectWinner es (weightSum es) r = some ((es.get ⟨i, hi⟩).name)
    ∧ (∀ j, j < i → (cumBefore es (j + 1) : ℚ) ≤ r * (weightSum es : ℚ))
    ∧ cumBefore es (i + 1) - cumBefore es i = (es.get ⟨i, hi⟩).weight
    ∧ (cumBefore es (i + 1) : ℚ) / (weightSum es : ℚ)
        - (cumBefore es i : ℚ) / (weightSum es : ℚ)
      = ((es.get ⟨i, hi⟩).weight : ℚ) / (weightSum es : ℚ) := by
  have hmono : ∀ j, j < i →
      (cumBefore es (j + 1) : ℚ) ≤ r * (weightSum es : ℚ) := by
    intro j hj
    have hle : cumBefore es (j + 1) ≤ cumBefore es i :=
      cumBefore_mono es (fun e he => le_of_lt (hpos e he)) (by omega)
    have hle2 : ((cumBefore es (j + 1) : Int) : ℚ) ≤ (cumBefore es i : ℚ) := by
      exact_mod_cast hle
    linarith
  have hsel : selectWinner es (weightSum es) r
      = some ((es.get ⟨i, hi⟩).name) := by
    unfold selectWinner
    apply selectLoop_stops (r * (weightSum es : ℚ)) es 0 i hi
    · intro j hj
      rw [zero_add, not_lt]
      exact hmono j hj
    · rw [zero_add]
      exact hhi
  have hwidth : cumBefore es (i + 1) - cumBefore es i
      = (es.get ⟨i, hi⟩).weight := by
    rw [cumBefore_succ es i hi]
    ring
  refine ⟨hsel, hmono, hwidth, ?_⟩
  rw [div_sub_div_same]
  congr 1
  exact_mod_cast hwidth

theorem selectWinner_first_interval_witness :
    selectWinner esABC (weightSum esABC) (1/2)
      = some ((esABC.get ⟨1, by decide⟩).name) := by
  have e1 : cumBefore esABC 1 = 50 := by decide
  have e2 : cumBefore esABC 2 = 80 := by decide
  have e3 : weightSum esABC = 100 := by decide
  have h := selectWinner_first_interval esABC (1/2) 1 (by decide) (by decide)
    (by norm_num) (by norm_num)
    (by rw [e1, e3]; norm_num)
    (by rw [e2, e3]; norm_num)
  exact h.1

/-- Claim C2: whenever parsing the path succeeds on a non-empty segment list
and the draw `r` is in `[0,1)`, the handler returns status 200 with a winner
that is one of the parsed labels; the `winner = null` outcome is unreachable
under this precondition. -/
theorem handle_winner_in_list (url : String) (r : ℚ) (es : List Entry) (W : Int)
    (hp : parseEntries (pathSegments url) = some (es, W))
    (hne : pathSegments url ≠ []) (h0 : 0 ≤ r) (h1 : r < 1) :
    ∃ l, handle url r = Response.mk 200 (Body.winner (some l))
      ∧ l ∈ es.map (fun e => e.name) := by
  obtain ⟨hlen, hW, hpos, _⟩ := parseEntries_sound _ _ _ hp
  have hesne : es ≠ [] := by
    intro h
    subst h
    simp at hlen
    exact hne (List.length_eq_zero.mp hlen.symm)
  have hWpos : 0 < W := by
    rw [hW]
    exact weightSum_pos es hesne hpos
  have hQ : (0 : ℚ) < (W : ℚ) := by exact_mod_cast hWpos
  have hlt : r * (W : ℚ) < 0 + (weightSum es : ℚ) := by
    rw [zero_add, ← hW]
    have := mul_lt_of_lt_one_left hQ h1
    linarith
  obtain ⟨l, hsel, hmem⟩ := selectLoop_total (r * (W : ℚ)) es 0 hesne hlt
  refine ⟨l, ?_, hmem⟩
  rw [handle_success r hne hp]
  unfold selectWinner
  rw [hsel]

theorem handle_winner_in_list_witness :
    ∃ l, handle pathABC 0 = Response.mk 200 (Body.winner (some l))
      ∧ l ∈ esABC.map (fun e => e.name) :=
  handle_winner_in_list pathABC 0 esABC 100 (by decide) (by decide)
    (by norm_num) (by norm_num)

/-- Claim C3: a segment is split at every underscore; the parse rejects a
segment exactly when the split does not have exactly two parts (given two
parts, only a bad weight can still reject it); any segment whose split is not
two parts makes the whole request fail with the InvalidFormat response; in
particular `a_50_x` (three parts) is rejected. -/
theorem segment_split_exactly_two :
    (∀ s : String, (jsSplit usep s).length ≠ 2 → parseSegment s = none)
    ∧ (∀ s : String, (jsSplit usep s).length = 2 →
        (parseSegment s = none ↔
          parseIntJS ((jsSplit usep s).getD 1 emptyStr) = none
          ∨ ∃ v, parseIntJS ((jsSplit usep s).getD 1 emptyStr) = some v ∧ v ≤ 0))
    ∧ (∀ (url : String) (r : ℚ) (s : String), s ∈ pathSegments url →
        (jsSplit usep s).length ≠ 2 →
        handle url r = Response.mk 400 (Body.errDetails errInvalid detailsHint))
    ∧ parseSegment segA50x = none := by
  refine ⟨fun s h => parseSegment_split_ne h, ?_, ?_, by decide⟩
  · intro s hlen
    constructor
    · intro hnone
      cases hint : parseIntJS ((jsSplit usep s).getD 1 emptyStr) with
      | none => exact Or.inl rfl
      | some v =>
        by_cases hle : v ≤ 0
        · exact Or.inr ⟨v, rfl, hle⟩
        · exfalso
          unfold parseSegment at hnone
          rw [if_neg (by simpa using hlen), hint] at hnone
          dsimp only at hnone
          rw [if_neg hle] at hnone
          cases hnone
    · exact parseSegment_weight_bad hlen
  · intro url r s hs h2
    exact handle_invalid r (fun hnil => by rw [hnil] at hs; cases hs)
      (parseEntries_none hs (parseSegment_split_ne h2))

theorem segment_split_exactly_two_witness :
    handle pathA50X 0 = Response.mk 400 (Body.errDetails errInvalid detailsHint)
    ∧ parseSegment segA50x = none :=
  ⟨segment_split_exactly_two.2.2.1 pathA50X 0 segA50x (by decide) (by decide),
    segment_split_exactly_two.2.2.2⟩

/-- Claim C5: a segment whose weight-string is non-numeric or parses to a
value at most 0 makes the whole request fail with the InvalidFormat response;
when parsing succeeds every entry weight is positive, the returned total is
the sum of the weights, and the total is positive when there was at least one
segment. -/
theorem weight_validation :
    (∀ (url : String) (r : ℚ) (s : String), s ∈ pathSegments url →
        (jsSplit usep s).length = 2 →
        (parseIntJS ((jsSplit usep s).getD 1 emptyStr) = none
          ∨ ∃ v, parseIntJS ((jsSplit usep s).getD 1 emptyStr) = some v ∧ v ≤ 0) →
        handle url r = Response.mk 400 (Body.errDetails errInvalid detailsHint))
    ∧ (∀ (segs : List String) (es : List Entry) (W : Int),
        parseEntries segs = some (es, W) →
        (∀ e ∈ es, 0 < e.weight) ∧ W = weightSum es)
    ∧ (∀ (segs : List String) (es : List Entry) (W : Int),
        parseEntries segs = some (es, W) → segs ≠ [] → 0 < W) := by
  refine ⟨?_, ?_, ?_⟩
  · intro url r s hs hlen hbad
    exact handle_invalid r (fun hnil => by rw [hnil] at hs; cases hs)
      (parseEntries_none hs (parseSegment_weight_bad hlen hbad))
  · intro segs es W h
    obtain ⟨_, hW, hpos, _⟩ := parseEntries_sound segs es W h
    exact ⟨hpos, hW⟩
  · intro segs es W h hne
    obtain ⟨hlen, hW, hpos, _⟩ := parseEntries_sound segs es W h
    have hesne : es ≠ [] := by
      intro he
      subst he
      simp at hlen
      exact hne (List.length_eq_zero.mp hlen.symm)
    rw [hW]
    exact weightSum_pos es hesne hpos

theorem weight_validation_witness :
    handle pathA0B10 0 = Response.mk 400 (Body.errDetails errInvalid detailsHint)
    ∧ (∀ e ∈ esABC, 0 < e.weight) ∧ (100 : Int) = weightSum esABC
    ∧ (0 : Int) < 100 :=
  ⟨weight_validation.1 pathA0B10 0 segA0 (by decide) (by decide)
      (Or.inr ⟨0, by decide, by decide⟩),
    (weight_validation.2.1 [segA, segB, segC] esABC 100 (by decide)).1,
    (weight_validation.2.1 [segA, segB, segC] esABC 100 (by decide)).2,
    weight_validation.2.2 [segA, segB, segC] esABC 100 (by decide) (by decide)⟩

/-- Claim C6: the handler answers the NoPrizesProvided response — status 400
with error text and a usage field — exactly when no path segments remain
after stripping the query string, empty segments and the routing tokens;
in particular on the raw inputs the empty string and a bare slash. -/
theorem no_prizes_iff (url : String) (r : ℚ) :
    (handle url r = Response.mk 400 (Body.errUsage errNoPrizes usageHint)
      ↔ pathSegments url = [])
    ∧ pathSegments emptyStr = []
    ∧ pathSegments slashStr = []
    ∧ handle emptyStr r = Response.mk 400 (Body.errUsage errNoPrizes usageHint)
    ∧ handle slashStr r = Response.mk 400 (Body.errUsage errNoPrizes usageHint) := by
  refine ⟨⟨?_, handle_empty r⟩, by decide, by decide,
    handle_empty r (by decide), handle_empty r (by decide)⟩
  intro h
  by_cases hseg : pathSegments url = []
  · exact hseg
  · exfalso
    cases hp : parseEntries (pathSegments url) with
    | none =>
      rw [handle_invalid r hseg hp] at h
      injection h with h1 h2
      exact Body.noConfusion h2
    | some p =>
      obtain ⟨es, W⟩ := p
      rw [handle_success r hseg hp] at h
      injection h with h1 h2
      exact absurd h1 (by decide)

/-- Claim C7: validation is all-or-nothing: if any path segment fails to
parse, the whole request gets the single InvalidFormat response — status 400
with exactly the error and details fields — and no partial entry list or
winner is returned. -/
theorem invalid_aborts_all (url : String) (r : ℚ) (s : String)
    (hs : s ∈ pathSegments url) (hbad : parseSegment s = none) :
    handle url r = Response.mk 400 (Body.errDetails errInvalid detailsHint) :=
  handle_invalid r (fun hnil => by rw [hnil] at hs; cases hs)
    (parseEntries_none hs hbad)

theorem invalid_aborts_all_witness :
    handle pathA50B 0 = Response.mk 400 (Body.errDetails errInvalid detailsHint) :=
  invalid_aborts_all pathA50B 0 bStr (by decide) (by decide)

/-- Claim C4: weight parsing is lenient: a weight-string that begins with
decimal digits followed by non-digit characters parses to the integer value
of the leading digits; in particular the segment `a_50abc` is accepted with
weight 50 rather than rejected. -/
theorem lenient_weight_parse (ds rest : List Char)
    (hne : ds ≠ []) (hdig : ∀ c ∈ ds, c.isDigit = true)
    (hrest : ∀ c ∈ rest.take 1, c.isDigit = false) :
    parseIntJS (String.mk (ds ++ rest)) = some ((digitsValue ds : Nat) : Int)
    ∧ parseSegment segA50abc = some (Entry.mk aStr 50) :=
  ⟨parseIntJS_digits ds rest hne hdig hrest, by decide⟩

theorem lenient_weight_parse_witness :
    parseIntJS (String.mk (['5', '0'] ++ ['a', 'b', 'c']))
      = some ((digitsValue ['5', '0'] : Nat) : Int)
    ∧ parseSegment segA50abc = some (Entry.mk aStr 50) :=
  lenient_weight_parse ['5', '0'] ['a', 'b', 'c']
    (by decide) (by decide) (by decide)

/-- Claim C8 as stated is false: the code never checks that the part before
the underscore is non-empty, so the segment `_50` produces a validated entry
whose label is the empty string. -/
theorem empty_label_counterexample :
    parseSegment underFifty = some (Entry.mk emptyStr 50)
    ∧ (Entry.mk emptyStr 50).name.length = 0 := by decide

/-- Claim C8 amended: a validated entry's label is exactly the part of the
segment before the first underscore and may be empty: `_50` is accepted as an
entry with empty label and weight 50, and the handler can answer such an
empty label as the winner. -/
theorem empty_label_accepted :
    (∀ (s : String) (e : Entry), parseSegment s = some e →
      e.name = (jsSplit usep s).headD emptyStr)
    ∧ parseSegment underFifty = some (Entry.mk emptyStr 50)
    ∧ (∀ r : ℚ, 0 ≤ r → r < 1 →
        handle pathUnderFifty r = Response.mk 200 (Body.winner (some emptyStr))) := by
  refine ⟨fun s e h => (parseSegment_some h).2.1, by decide, ?_⟩
  intro r h0 h1
  have hp : parseEntries (pathSegments pathUnderFifty)
      = some ([Entry.mk emptyStr 50], 50) := by decide
  rw [handle_success r (by decide) hp]
  have hstep : selectWinner [Entry.mk emptyStr 50] 50 r
      = if r * ((50 : Int) : ℚ) < 0 + ((50 : Int) : ℚ) then some emptyStr
        else none := rfl
  have hc : r * ((50 : Int) : ℚ) < 0 + ((50 : Int) : ℚ) := by
    push_cast
    have := mul_lt_of_lt_one_left (show (0 : ℚ) < 50 by norm_num) h1
    linarith
  rw [hstep, if_pos hc]

theorem empty_label_accepted_witness :
    (Entry.mk emptyStr 50).name = (jsSplit usep underFifty).headD emptyStr
    ∧ handle pathUnderFifty 0 = Response.mk 200 (Body.winner (some emptyStr)) :=
  ⟨empty_label_accepted.1 underFifty (Entry.mk emptyStr 50) (by decide),
    empty_label_accepted.2.2 0 (by norm_num) (by norm_num)⟩

/-- Claim C9: parsing preserves encounter order exactly: the i-th entry of a
successful parse comes from the i-th segment, the returned total is the sum
of the weights, and on the running example `/a_50/b_30/c_20` the result is
the entries a:50, b:30, c:20 in order with total 100. -/
theorem parse_preserves_order (segs : List String) (es : List Entry) (W : Int)
    (h : parseEntries segs = some (es, W)) :
    es.length = segs.length
    ∧ (∀ i : Nat, es[i]? = (segs[i]?).bind parseSegment)
    ∧ W = weightSum es
    ∧ pathSegments pathABC = [segA, segB, segC]
    ∧ parseEntries [segA, segB, segC] = some (esABC, 100) := by
  obtain ⟨h1, hW, _, hidx⟩ := parseEntries_sound segs es W h
  exact ⟨h1, hidx, hW, by decide, by decide⟩

theorem parse_preserves_order_witness :
    esABC.length = ([segA, segB, segC] : List String).length
    ∧ (∀ i : Nat, esABC[i]? = (([segA, segB, segC] : List String)[i]?).bind parseSegment)
    ∧ (100 : Int) = weightSum esABC := by
  have h := parse_preserves_order [segA, segB, segC] esABC 100 (by decide)
  exact ⟨h.1, h.2.1, h.2.2.1⟩

/-- Claim C10: JavaScript parseInt semantics make weight parsing even more
lenient than the trailing-garbage quirk: leading whitespace, a leading plus
sign, and a decimal point (truncated) are all accepted as positive weights. -/
theorem parseInt_extra_leniency :
    parseIntJS wsFifty = some 50
    ∧ parseIntJS plusFive = some 5
    ∧ parseIntJS fiveDotNine = some 5
    ∧ parseSegment xwsSeg = some (Entry.mk xStr 50)
    ∧ parseSegment xplusSeg = some (Entry.mk xStr 5)
    ∧ parseSegment xdotSeg = some (Entry.mk xStr 5) := by decide
